import Mathlib

/-!
# Verification of the volume-profile / support-strength core

Shallow embedding of `src/core/volume_profile.py` (class `VolumeProfileAnalyzer`)
and `src/core/support_strength.py` (class `SupportStrengthAnalyzer`).

Modelling conventions:
* Python floats are modelled by `ℚ` (all operations the claims touch are
  field operations and comparisons; `np.exp` is the one transcendental and is
  taken as an abstract parameter where it occurs).
* A pandas `Series`/`dict` keyed by bucket index is modelled by a function
  `ℤ → ℚ` together with the explicit index range `1 .. n_bins + 1` of the
  reindexed profile; `Series.get(key, default)` becomes a range-checked lookup.
* The `while` loop of `_calculate_value_area` has no a-priori termination
  proof (indeed it can diverge), so it is embedded with explicit fuel:
  `none` means the loop is still running after `fuel` guard checks.
-/

/-- One OHLCV candle (row of the input DataFrame).  Only the columns the core
reads (`Low`, `High`, `Close`, `Volume`) are modelled; `Open` and the
timestamp index are never used by the analyzers. -/
structure Candle where
  low : ℚ
  high : ℚ
  close : ℚ
  volume : ℚ
deriving DecidableEq

/-- Model of `self.df[\x27Low\x27].min()` over a nonempty series (pandas returns NaN on an
empty frame; the empty case is not modelled and is given the junk value 0). -/
def priceMin : List Candle → ℚ
  | [] => 0
  | c :: cs => cs.foldl (fun a x => min a x.low) c.low

/-- Model of `self.df[\x27High\x27].max()` over a nonempty series. -/
def priceMax : List Candle → ℚ
  | [] => 0
  | c :: cs => cs.foldl (fun a x => max a x.high) c.high

/-- Model of `bins = np.linspace(price_min, price_max, n_bins + 1)`: the `j`-th bin
edge, `j = 0 .. n_bins`, at spacing `(price_max - price_min) / n_bins`. -/
def binEdge (pm pM : ℚ) (nBins : ℕ) (j : ℤ) : ℚ :=
  pm + j * ((pM - pm) / nBins)

/-- Model of `np.digitize(x, bins)` with the default `right=False` on the
non-decreasing edge array: the number of edges `≤ x`
(`searchsorted(bins, x, side=\x27right\x27)`).  Result ranges over
`0 .. n_bins + 1`; `n_bins + 1` is the overflow bucket hit by
`x = price_max` (and, for a degenerate range, by every `x ≥ price_min`). -/
def digitizeIdxN (pm pM : ℚ) (nBins : ℕ) (x : ℚ) : ℕ :=
  ((Finset.range (nBins + 1)).filter (fun j : ℕ => binEdge pm pM nBins (j : ℤ) ≤ x)).card

/-- Histogram accumulation with the price range passed explicitly: the sum of
`Volume` over candles whose `Close` digitizes to bucket `i`
(`groupby(\x27bin_idx\x27)` then `.sum()`, reindexed with fill value 0). -/
def buildProfileAux (pm pM : ℚ) (nBins : ℕ) (s : List Candle) : ℤ → ℚ := fun i =>
  ((s.filter (fun c =>
      ((digitizeIdxN pm pM nBins c.close : ℤ) = i : Bool))).map
    Candle.volume).sum

/-- Model of `_build_histogram`: the price range is `[min(Low), max(High)]` of the
series itself. -/
def buildProfile (s : List Candle) (nBins : ℕ) : ℤ → ℚ :=
  buildProfileAux (priceMin s) (priceMax s) nBins s

/-- Model of `self.bin_prices.get(i, 0.0)`: the bucket-midpoint table
`{i: (bins[i-1] + bins[i]) / 2 for i in range(1, len(bins))}` has keys
`1 .. n_bins` only; any other index returns the default `0.0`. -/
def binPricesGet (pm pM : ℚ) (nBins : ℕ) (i : ℤ) : ℚ :=
  if 1 ≤ i ∧ i ≤ (nBins : ℤ) then
    (binEdge pm pM nBins (i - 1) + binEdge pm pM nBins i) / 2
  else 0

/-- Model of `self.profile.get(i, 0)`: the reindexed profile has index
`1 .. n_bins + 1` (`np.arange(1, n_bins + 2)`); other keys return the
default 0. -/
def profGet (p : ℤ → ℚ) (nBins : ℕ) (i : ℤ) : ℚ :=
  if 1 ≤ i ∧ i ≤ (nBins : ℤ) + 1 then p i else 0

/-- Model of `_calculate_poc`: `self.profile.idxmax()` — the smallest index of the
profile (index `1 .. n_bins + 1`, ascending) attaining the maximal volume:
a left fold that replaces the current best only on a strictly larger value. -/
def pocIdx (p : ℤ → ℚ) (nBins : ℕ) : ℤ :=
  ((List.range nBins).map (fun k : ℕ => (k : ℤ) + 2)).foldl
    (fun best i => if p best < p i then i else best) 1

/-- Model of `self.profile.sum()`: the profile index is the union of
`1 .. n_bins + 1` with the observed digitize values (all of which lie in
`0 .. n_bins + 1`), so the sum ranges over `0 .. n_bins + 1`. -/
def totalVolume (p : ℤ → ℚ) (nBins : ℕ) : ℚ :=
  ∑ k ∈ Finset.range (nBins + 2), p (k : ℤ)

/-- One body of the `_calculate_value_area` expansion loop
(`if vol_upper > vol_lower: ... else: ...`): given the two neighbor volumes,
returns the updated `(current_volume, upper_idx, lower_idx)`.  Note the
`else` branch — which decrements `lower_idx` — is taken on an exact tie. -/
def vaStep (vu vl cur : ℚ) (upper lower : ℤ) : ℚ × ℤ × ℤ :=
  if vl < vu then (cur + vu, upper + 1, lower) else (cur + vl, upper, lower - 1)

/-- The `while current_volume < target_volume` loop of
`_calculate_value_area`, with explicit fuel counting guard checks:
`some (upper_idx, lower_idx)` if the loop exits (guard false, or the
`next_upper > n_bins and next_lower < 1` break fires after the update)
within `fuel` checks, `none` if it is still running. -/
def vaLoopFuel (p : ℤ → ℚ) (nBins : ℕ) (target : ℚ) :
    ℕ → ℚ → ℤ → ℤ → Option (ℤ × ℤ)
  | 0, _, _, _ => none
  | fuel + 1, cur, upper, lower =>
    if cur < target then
      let next := vaStep (profGet p nBins (upper + 1)) (profGet p nBins (lower - 1))
        cur upper lower
      if (nBins : ℤ) < upper + 1 ∧ lower - 1 < 1 then some (next.2.1, next.2.2)
      else vaLoopFuel p nBins target fuel next.1 next.2.1 next.2.2
    else some (upper, lower)

/-- Entry state of `_calculate_value_area`: `target_volume = total * va_range`,
`current_volume = profile.loc[poc]`, `upper = lower = poc`. -/
def calculateValueArea (p : ℤ → ℚ) (nBins : ℕ) (vaRange : ℚ) (pocI : ℤ)
    (fuel : ℕ) : Option (ℤ × ℤ) :=
  vaLoopFuel p nBins (totalVolume p nBins * vaRange) fuel (p pocI) pocI pocI

/-- Model of `round(x, k)` / pandas `.round(k)` (half-tie direction differs between
IEEE round-half-even and `round = ⌊x + 1/2⌋`; no claim probes a half tie). -/
def rnd (k : ℕ) (x : ℚ) : ℚ := ((round (x * 10 ^ k) : ℤ) : ℚ) / 10 ^ k

/-- The POC/VAH/VAL/total part of `get_results` (HVN/LVN detection uses
scipy smoothing and is outside every claim). -/
structure VPResults where
  poc : ℚ
  vah : ℚ
  val : ℚ
  totalVol : ℤ
deriving DecidableEq

/-- The `calculate` pipeline of `VolumeProfileAnalyzer` up to `get_results`:
build histogram, locate POC, run value-area expansion (with the given fuel),
then map indices to midpoint prices with default `0.0` and round.  `none`
means the expansion loop did not terminate within `fuel` iterations. -/
def analyze (s : List Candle) (nBins : ℕ) (vaRange : ℚ) (fuel : ℕ) :
    Option VPResults :=
  let p := buildProfile s nBins
  let pm := priceMin s
  let pM := priceMax s
  let poc := pocIdx p nBins
  match calculateValueArea p nBins vaRange poc fuel with
  | none => none
  | some (u, l) =>
    some ⟨rnd 2 (binPricesGet pm pM nBins poc), rnd 2 (binPricesGet pm pM nBins u),
      rnd 2 (binPricesGet pm pM nBins l), ⌊totalVolume p nBins⌋⟩

/-! ## Concrete inputs used by counterexamples and witnesses -/

/-- Two candles over price range `[0, 4]`: closes at `0.5` (bucket 1) and
`2.5` (bucket 3), volume 1 each.  With `n_bins = 4` the profile is
`1, 0, 1, 0, 0` on buckets `1 .. 5`, POC = bucket 1. -/
def seriesStuck : List Candle :=
  [⟨0, 1, 1/2, 1⟩, ⟨2, 4, 5/2, 1⟩]

/-- Its histogram with `n_bins = 4`. -/
def profileStuck : ℤ → ℚ := buildProfile seriesStuck 4

/-- For `seriesStuck` the expansion loop is stuck: from any state with
`current_volume = 1`, `upper_idx = 1` and `lower_idx ≤ 1` it recurses
forever — both neighbor volumes are 0, the tie decrements `lower_idx`,
and the break never fires because `next_upper = 2 ≤ n_bins = 4`. -/
theorem vaLoopFuel_stuck (fuel : ℕ) : ∀ l : ℤ, l ≤ 1 →
    vaLoopFuel profileStuck 4 (7/5) fuel 1 1 l = none := by
  induction fuel with
  | zero => intro l _; rfl
  | succ f ih =>
    intro l hl
    have hvu : profGet profileStuck 4 (1 + 1) = 0 := by with_unfolding_all decide
    have hvl : profGet profileStuck 4 (l - 1) = 0 := by
      unfold profGet
      rw [if_neg]
      rintro ⟨h1, -⟩
      omega
    rw [vaLoopFuel, if_pos (by norm_num), hvu, hvl]
    rw [if_neg (by omega)]
    show vaLoopFuel profileStuck 4 (7/5) f (1 + 0) 1 (l - 1) = none
    rw [show (1 : ℚ) + 0 = 1 by norm_num]
    exact ih (l - 1) (by omega)

/-- C1: the value-area expansion loop does NOT always terminate, and in
particular is not bounded by `2 × n_bins` iterations: on `seriesStuck`
(`n_bins = 4`, `va_range = 0.7`) the full pipeline never finishes, for any
iteration budget `fuel` whatsoever — the loop runs forever.  (The specified
early-termination condition 3d requires BOTH neighbors out of range, but the
upper index stays at the in-range POC bucket 1 while the lower index
decreases without bound.) -/
theorem valueArea_loop_diverges (fuel : ℕ) :
    analyze seriesStuck 4 (7/10) fuel = none := by
  have hpoc : pocIdx profileStuck 4 = 1 := by with_unfolding_all decide
  have htot : totalVolume profileStuck 4 * (7/10) = 7/5 := by with_unfolding_all decide
  have hcur : profileStuck 1 = 1 := by with_unfolding_all decide
  unfold analyze calculateValueArea
  show (match vaLoopFuel profileStuck 4
      (totalVolume profileStuck 4 * (7/10)) fuel
      (profileStuck (pocIdx profileStuck 4)) (pocIdx profileStuck 4)
      (pocIdx profileStuck 4) with
    | none => (none : Option VPResults)
    | some (u, l) => some _) = none
  rw [hpoc, hcur, htot, vaLoopFuel_stuck fuel 1 le_rfl]

/-! ## Loop-exit bounds and midpoint monotonicity (claims C2, C3) -/

/-- One expansion step moves exactly one boundary outward by one bucket. -/
theorem vaStep_bounds (vu vl cur : ℚ) (u l : ℤ) :
    (vaStep vu vl cur u l).2.2 ≤ l ∧ u ≤ (vaStep vu vl cur u l).2.1 := by
  unfold vaStep
  split_ifs
  · exact ⟨le_refl _, by show u ≤ u + 1; omega⟩
  · exact ⟨by show l - 1 ≤ l; omega, le_refl _⟩

/-- If the expansion loop exits, the final boundaries enclose the initial
ones: the lower index only ever decreases and the upper index only ever
increases. -/
theorem vaLoopFuel_bounds (p : ℤ → ℚ) (n : ℕ) (t : ℚ) :
    ∀ (fuel : ℕ) (cur : ℚ) (u l : ℤ) (r : ℤ × ℤ),
      vaLoopFuel p n t fuel cur u l = some r → r.2 ≤ l ∧ u ≤ r.1 := by
  intro fuel
  induction fuel with
  | zero => intro cur u l r h; exact absurd h (by simp [vaLoopFuel])
  | succ f ih =>
    intro cur u l r h
    simp only [vaLoopFuel] at h
    split_ifs at h with hg hb
    · have hr : ((vaStep (profGet p n (u + 1)) (profGet p n (l - 1)) cur u l).2.1,
          (vaStep (profGet p n (u + 1)) (profGet p n (l - 1)) cur u l).2.2) = r :=
        Option.some.inj h
      obtain ⟨hs1, hs2⟩ := vaStep_bounds (profGet p n (u + 1)) (profGet p n (l - 1)) cur u l
      rw [← hr]
      exact ⟨hs1, hs2⟩
    · obtain ⟨h1, h2⟩ := ih _ _ _ r h
      obtain ⟨hs1, hs2⟩ := vaStep_bounds (profGet p n (u + 1)) (profGet p n (l - 1)) cur u l
      exact ⟨le_trans h1 hs1, le_trans hs2 h2⟩
    · obtain rfl : (u, l) = r := Option.some.inj h
      exact ⟨le_refl _, le_refl _⟩

/-- Bucket midpoints are monotone in the bucket index over the midpoint-table
domain `1 .. n_bins`, provided the price range is non-degenerate. -/
theorem binPricesGet_mono (pm pM : ℚ) (n : ℕ) (hpm : pm < pM) (i j : ℤ)
    (h1 : 1 ≤ i) (hij : i ≤ j) (hj : j ≤ (n : ℤ)) :
    binPricesGet pm pM n i ≤ binPricesGet pm pM n j := by
  have hn : (0 : ℤ) < (n : ℤ) := by omega
  have hnQ : (0 : ℚ) < (n : ℚ) := by exact_mod_cast hn
  have hs : (0 : ℚ) ≤ (pM - pm) / (n : ℚ) := le_of_lt (div_pos (by linarith) hnQ)
  unfold binPricesGet
  rw [if_pos ⟨h1, le_trans hij hj⟩, if_pos ⟨le_trans h1 hij, hj⟩]
  unfold binEdge
  have hijQ : (i : ℚ) ≤ (j : ℚ) := by exact_mod_cast hij
  have e1 : ((i : ℚ) - 1) * ((pM - pm) / n) ≤ ((j : ℚ) - 1) * ((pM - pm) / n) :=
    mul_le_mul_of_nonneg_right (by linarith) hs
  have e2 : (i : ℚ) * ((pM - pm) / n) ≤ (j : ℚ) * ((pM - pm) / n) :=
    mul_le_mul_of_nonneg_right hijQ hs
  push_cast
  linarith

/-- Strict midpoint monotonicity on the midpoint-table domain. -/
theorem binPricesGet_strictMono (pm pM : ℚ) (n : ℕ) (hpm : pm < pM) (i j : ℤ)
    (h1 : 1 ≤ i) (hij : i < j) (hj : j ≤ (n : ℤ)) :
    binPricesGet pm pM n i < binPricesGet pm pM n j := by
  have hn : (0 : ℤ) < (n : ℤ) := by omega
  have hnQ : (0 : ℚ) < (n : ℚ) := by exact_mod_cast hn
  have hs : (0 : ℚ) < (pM - pm) / (n : ℚ) := div_pos (by linarith) hnQ
  unfold binPricesGet
  rw [if_pos ⟨h1, by omega⟩, if_pos ⟨by omega, hj⟩]
  unfold binEdge
  have hijQ : (i : ℚ) < (j : ℚ) := by exact_mod_cast hij
  have e1 : ((i : ℚ) - 1) * ((pM - pm) / n) < ((j : ℚ) - 1) * ((pM - pm) / n) :=
    mul_lt_mul_of_pos_right (by linarith) hs
  have e2 : (i : ℚ) * ((pM - pm) / n) < (j : ℚ) * ((pM - pm) / n) :=
    mul_lt_mul_of_pos_right hijQ hs
  push_cast
  linarith

/-- Candles over `[0, 2]` with `n_bins = 2`: bucket 1 holds 9, bucket 2
holds 0, and the overflow bucket 3 (close exactly at `price_max`) holds the
maximal volume 10, so the POC index is 3, outside the midpoint table. -/
def seriesSkew : List Candle :=
  [⟨0, 2, 2, 10⟩, ⟨1/5, 4/5, 1/2, 9⟩]

/-- C2 counterexample: on `seriesSkew` the pipeline completes (3 guard
checks) with `VAL = 0.5` but `POC = VAH = 0.0` — the POC and upper boundary
sit on the overflow bucket 3, whose missing midpoint defaults to `0.0`, so
`val_price ≤ poc_price` FAILS for a computed value area. -/
theorem valueArea_order_cx :
    analyze seriesSkew 2 (7/10) 3 = some ⟨0, 0, 1/2, 19⟩ ∧ ¬ ((1 : ℚ)/2 ≤ 0) := by
  constructor
  · with_unfolding_all decide
  · norm_num

/-- C2 amended: `val_price ≤ poc_price ≤ vah_price` DOES hold whenever the
expansion loop exits with both final boundary indices inside the midpoint
table `1 .. n_bins` (so no price defaulted to `0.0`) over a non-degenerate
price range.  The POC ordering follows because expansion starts at the POC
index and the boundaries only move outward. -/
theorem valueArea_order (pm pM : ℚ) (n : ℕ) (p : ℤ → ℚ) (t cur : ℚ)
    (fuel : ℕ) (poc u l : ℤ) (hpm : pm < pM)
    (h : vaLoopFuel p n t fuel cur poc poc = some (u, l))
    (hl : 1 ≤ l) (hu : u ≤ (n : ℤ)) :
    binPricesGet pm pM n l ≤ binPricesGet pm pM n poc ∧
    binPricesGet pm pM n poc ≤ binPricesGet pm pM n u := by
  obtain ⟨h1, h2⟩ := vaLoopFuel_bounds p n t fuel cur poc poc (u, l) h
  exact ⟨binPricesGet_mono pm pM n hpm l poc hl h1 (le_trans h2 hu),
    binPricesGet_mono pm pM n hpm poc u (le_trans hl h1) h2 hu⟩

/-- A profile centered at bucket 3 over `n_bins = 4` whose POC bucket alone
meets the target: the loop exits immediately with in-range boundaries. -/
def profileCentered : ℤ → ℚ := fun i =>
  if i = 3 then 5 else if i = 2 ∨ i = 4 then 1 else 0

theorem valueArea_order_witness :
    binPricesGet 0 4 4 3 ≤ binPricesGet 0 4 4 3 ∧
    binPricesGet 0 4 4 3 ≤ binPricesGet 0 4 4 3 :=
  valueArea_order 0 4 4 profileCentered (49/10) 5 1 3 3 3 (by norm_num)
    (by with_unfolding_all decide) (by norm_num) (by norm_num)

/-- C3 counterexample: with both neighbor volumes equal to 1 from state
`(current = 0, upper = 5, lower = 5)`, the expansion step leaves the upper
boundary at 5 (it does NOT advance it to 6) and decrements the lower
boundary instead. -/
theorem tie_expansion_cx :
    vaStep 1 1 0 5 5 = (1, 5, 4) ∧ ¬ ((vaStep 1 1 0 5 5).2.1 = 5 + 1) := by
  with_unfolding_all decide

/-- C3 amended: on an exact volume tie the expansion advances the LOWER
boundary (the `else` branch of `if vol_upper > vol_lower`), leaving the
upper boundary unchanged. -/
theorem tie_expands_lower (vu vl cur : ℚ) (u l : ℤ) (h : vu = vl) :
    vaStep vu vl cur u l = (cur + vl, u, l - 1) := by
  unfold vaStep
  rw [if_neg]
  subst h
  exact lt_irrefl vu

theorem tie_expands_lower_witness : vaStep 2 2 3 7 4 = (3 + 2, 7, 4 - 1) :=
  tie_expands_lower 2 2 3 7 4 rfl

/-! ## Histogram boundary behaviour and validation (claims C6, C7) -/

/-- A digitize index never exceeds `n_bins + 1` (there are only
`n_bins + 1` edges to count). -/
theorem digitizeIdxN_le (pm pM : ℚ) (n : ℕ) (x : ℚ) :
    digitizeIdxN pm pM n x ≤ n + 1 := by
  unfold digitizeIdxN
  calc ((Finset.range (n + 1)).filter _).card ≤ (Finset.range (n + 1)).card :=
        Finset.card_filter_le _ _
    _ = n + 1 := Finset.card_range _

/-- Single candle with `Close = High = price_max = 2` over `[0, 2]`. -/
def seriesTop : List Candle := [⟨0, 2, 2, 5⟩]

/-- C7 counterexample: with `n_bins = 2`, a close exactly at `price_max`
digitizes to bucket 3 = `n_bins + 1`, NOT to bucket `n_bins`; its volume
lands in bucket 3 and bucket 2 stays empty. -/
theorem close_at_max_cx :
    digitizeIdxN (priceMin seriesTop) (priceMax seriesTop) 2 2 = 3 ∧
    ¬ (digitizeIdxN (priceMin seriesTop) (priceMax seriesTop) 2 2 = 2) ∧
    buildProfile seriesTop 2 3 = 5 ∧ buildProfile seriesTop 2 2 = 0 := by
  with_unfolding_all decide

/-- C7 amended: over a non-degenerate range, a close exactly at `price_max`
is assigned to the overflow bucket `n_bins + 1` (outside the midpoint
table), while a close exactly at `price_min` is assigned to bucket 1. -/
theorem digitize_boundary (pm pM : ℚ) (n : ℕ) (hpm : pm < pM) (hn : 1 ≤ n) :
    digitizeIdxN pm pM n pM = n + 1 ∧ digitizeIdxN pm pM n pm = 1 := by
  have hnQ : (0 : ℚ) < (n : ℚ) := by exact_mod_cast hn
  have hsQ : (0 : ℚ) < (pM - pm) / (n : ℚ) := div_pos (by linarith) hnQ
  constructor
  · unfold digitizeIdxN
    rw [Finset.filter_true_of_mem, Finset.card_range]
    intro j hj
    rw [Finset.mem_range] at hj
    unfold binEdge
    have hj' : (j : ℚ) ≤ (n : ℚ) := by exact_mod_cast Nat.lt_succ_iff.mp hj
    have h1 : ((j : ℕ) : ℤ) * ((pM - pm) / (n : ℚ)) ≤ (n : ℚ) * ((pM - pm) / (n : ℚ)) := by
      push_cast
      exact mul_le_mul_of_nonneg_right hj' (le_of_lt hsQ)
    have h2 : (n : ℚ) * ((pM - pm) / (n : ℚ)) = pM - pm := by
      field_simp
    push_cast at h1 ⊢
    linarith
  · unfold digitizeIdxN
    have hset : ((Finset.range (n + 1)).filter
        (fun j : ℕ => binEdge pm pM n (j : ℤ) ≤ pm)) = {0} := by
      ext j
      simp only [Finset.mem_filter, Finset.mem_range, Finset.mem_singleton]
      unfold binEdge
      constructor
      · rintro ⟨-, hle⟩
        push_cast at hle
        by_contra hj0
        have hj1 : (1 : ℚ) ≤ (j : ℚ) := by
          have : 1 ≤ j := Nat.one_le_iff_ne_zero.mpr hj0
          exact_mod_cast this
        have : (1 : ℚ) * ((pM - pm) / (n : ℚ)) ≤ ((j : ℕ) : ℤ) * ((pM - pm) / (n : ℚ)) := by
          push_cast
          exact mul_le_mul_of_nonneg_right hj1 (le_of_lt hsQ)
        push_cast at this
        linarith
      · rintro rfl
        refine ⟨by omega, ?_⟩
        push_cast
        linarith
    rw [hset]
    rfl

theorem digitize_boundary_witness :
    digitizeIdxN 0 2 2 2 = 3 ∧ digitizeIdxN 0 2 2 0 = 1 :=
  digitize_boundary 0 2 2 (by norm_num) (by norm_num)

/-- Single degenerate candle: `Low = High = Close = 5`, so
`price_min = price_max = 5`. -/
def seriesFlat : List Candle := [⟨5, 5, 5, 7⟩]

/-- C6 counterexample: on a series with `min(Low) = max(High)` the
histogram IS built and the whole analysis completes, returning a result
record (all volume in the overflow bucket, prices defaulting to `0.0`) —
no error of any kind is raised, and `InsufficientDataError` does not exist
anywhere in the code. -/
theorem degenerate_range_cx : analyze seriesFlat 2 (7/10) 1 = some ⟨0, 0, 0, 7⟩ := by
  with_unfolding_all decide

/-- C6 amended: `_build_histogram` performs no validation; with a degenerate
range (`price_min = price_max = pm`) all bin edges coincide at `pm`, so
every close `x ≥ pm` digitizes to the overflow bucket `n_bins + 1` and the
histogram is still produced. -/
theorem degenerate_digitize (pm x : ℚ) (n : ℕ) (h : pm ≤ x) :
    digitizeIdxN pm pm n x = n + 1 := by
  unfold digitizeIdxN
  rw [Finset.filter_true_of_mem, Finset.card_range]
  intro j _
  unfold binEdge
  simp only [sub_self, zero_div, mul_zero, add_zero]
  exact h

theorem degenerate_digitize_witness : digitizeIdxN 5 5 2 5 = 3 :=
  degenerate_digitize 5 5 2 le_rfl

/-! ## Conservation of volume (claim C9) -/

/-- Summing the histogram over all reachable bucket indices
`0 .. n_bins + 1` recovers the total candle volume, for any fixed price
range. -/
theorem sum_buildProfileAux (pm pM : ℚ) (n : ℕ) :
    ∀ s : List Candle,
      ∑ k ∈ Finset.range (n + 2), buildProfileAux pm pM n s (k : ℤ) =
        (s.map Candle.volume).sum := by
  intro s
  induction s with
  | nil => simp [buildProfileAux]
  | cons c cs ih =>
    have hsplit : ∀ k : ℤ, buildProfileAux pm pM n (c :: cs) k =
        (if ((digitizeIdxN pm pM n c.close : ℤ) = k) then c.volume else 0) +
          buildProfileAux pm pM n cs k := by
      intro k
      unfold buildProfileAux
      by_cases h : ((digitizeIdxN pm pM n c.close : ℤ) = k)
      · simp [List.filter_cons, h]
      · simp [List.filter_cons, h]
    simp only [hsplit]
    rw [Finset.sum_add_distrib, ih]
    have hfirst : ∑ k ∈ Finset.range (n + 2),
        (if ((digitizeIdxN pm pM n c.close : ℤ) = (k : ℤ)) then c.volume else 0) =
          c.volume := by
      have hcond : ∀ k ∈ Finset.range (n + 2),
          (if ((digitizeIdxN pm pM n c.close : ℤ) = (k : ℤ)) then c.volume else 0) =
            (if digitizeIdxN pm pM n c.close = k then c.volume else 0) := by
        intro k _
        congr 1
        simp [Int.natCast_inj]
      rw [Finset.sum_congr rfl hcond, Finset.sum_ite_eq]
      rw [if_pos (Finset.mem_range.mpr (by
        have := digitizeIdxN_le pm pM n c.close
        omega))]
    rw [hfirst]
    simp

/-- C9: conservation of volume — the sum of all values of the built
profile equals the sum of the candle volumes, for every candle series and
every bin count. -/
theorem volume_conservation (s : List Candle) (nBins : ℕ) :
    totalVolume (buildProfile s nBins) nBins = (s.map Candle.volume).sum := by
  unfold totalVolume buildProfile
  exact sum_buildProfileAux (priceMin s) (priceMax s) nBins s

/-! ## Default price lookups (claim C10) -/

/-- C10: the midpoint lookup is total — any index outside `1 .. n_bins`
(e.g. the overflow index `n_bins + 1` that digitize can produce, or an
index below 1 reached by downward expansion) silently yields the default
price `0.0` instead of raising — and `0.0` is in fact a reachable
POC/VAH/VAL output of the full pipeline (`seriesTop` puts its maximal
volume in the overflow bucket). -/
theorem binPrices_default_and_reachable :
    (∀ (pm pM : ℚ) (n : ℕ) (i : ℤ), (i < 1 ∨ (n : ℤ) < i) →
      binPricesGet pm pM n i = 0) ∧
    analyze seriesTop 2 (7/10) 1 = some ⟨0, 0, 0, 5⟩ := by
  constructor
  · intro pm pM n i hi
    unfold binPricesGet
    rw [if_neg]
    rintro ⟨h1, h2⟩
    rcases hi with h | h <;> omega
  · with_unfolding_all decide

theorem binPrices_default_and_reachable_witness :
    binPricesGet 0 2 2 3 = 0 ∧ analyze seriesTop 2 (7/10) 1 = some ⟨0, 0, 0, 5⟩ :=
  ⟨binPrices_default_and_reachable.1 0 2 2 3 (Or.inr (by norm_num)),
    binPrices_default_and_reachable.2⟩

/-! ## Support strength scoring (`src/core/support_strength.py`) -/

/-- Python dict assignment `d[k] = v` on an insertion-ordered association
list: overwrite in place if the key exists, else append at the end. -/
def dictSet (d : List (ℚ × ℚ)) (k v : ℚ) : List (ℚ × ℚ) :=
  if d.any (fun kv => kv.1 = k) then
    d.map (fun kv => if kv.1 = k then (k, v) else kv)
  else d ++ [(k, v)]

/-- One iteration of the `_calculate_volume_strength` loop for bucket `i`:
`price = self.bin_prices.get(bin_idx, 0); if price > 0:
strength_scores[price] = float(volume)`.  Note the guard is on the PRICE,
not the volume. -/
def seedStep (p : ℤ → ℚ) (pm pM : ℚ) (nBins : ℕ) (d : List (ℚ × ℚ)) (i : ℤ) :
    List (ℚ × ℚ) :=
  if 0 < binPricesGet pm pM nBins i then dictSet d (binPricesGet pm pM nBins i) (p i)
  else d

/-- Model of `_calculate_volume_strength`: fold `seedStep` over the profile items
(index `1 .. n_bins + 1`, ascending), producing the `strength_scores` dict
as an insertion-ordered association list `price ↦ volume`. -/
def strengthScores (p : ℤ → ℚ) (pm pM : ℚ) (nBins : ℕ) : List (ℚ × ℚ) :=
  ((List.range (nBins + 1)).map (fun k : ℕ => (k : ℤ) + 1)).foldl
    (seedStep p pm pM nBins) []

/-- Model of `_adjust_by_bounces`: per price, count candles whose `Low` lies within
`± price * 0.002` and multiply the strength by `1 + touches * 0.1`. -/
def adjustByBounces (s : List Candle) (d : List (ℚ × ℚ)) : List (ℚ × ℚ) :=
  d.map (fun pr =>
    (pr.1, pr.2 * (1 + ((s.countP (fun c =>
      decide (pr.1 - pr.1 * (2/1000) ≤ c.low ∧ c.low ≤ pr.1 + pr.1 * (2/1000)))) : ℚ) * (1/10))))

/-- Model of `_adjust_by_distance`: multiply each strength by
`np.exp(-5 * abs(price - current) / current)`; the map `ratio ↦ exp(-5 * ratio)`
is transcendental and is abstracted as the parameter `decay`. -/
def adjustByDistance (decay : ℚ → ℚ) (current : ℚ) (d : List (ℚ × ℚ)) :
    List (ℚ × ℚ) :=
  d.map (fun pr => (pr.1, pr.2 * decay (|pr.1 - current| / current)))

/-- One scored price level: row of the `_normalize_and_rank` DataFrame.
(The scipy z-score column is omitted: it requires a square root, is only
rounded for display, and nothing downstream reads it.) -/
structure StrengthRow where
  price : ℚ
  strength : ℚ
  normalized : ℚ
  rank : ℤ
deriving DecidableEq

/-- The result record of `_normalize_and_rank`: the full DataFrame
(`full_data`) plus the top-30% filtered rows whose projections form the
returned `levels`/`strengths`/`normalized`/`ranks` lists. -/
structure StrengthReport where
  rows : List StrengthRow
  filtered : List StrengthRow
deriving DecidableEq

def emptyReport : StrengthReport := ⟨[], []⟩

/-- Model of `Series.min()` of a nonempty column (pandas yields NaN on empty; the
empty case short-circuits before this is used). -/
def seriesMin : List ℚ → ℚ
  | [] => 0
  | x :: xs => xs.foldl min x

/-- Model of `Series.max()` of a nonempty column. -/
def seriesMax : List ℚ → ℚ
  | [] => 0
  | x :: xs => xs.foldl max x

/-- Model of `Series.rank(ascending=False, method=\x27min\x27)` of value `x` among
`vals`: competition ranking, `1 +` the number of strictly larger values. -/
def rankMin (vals : List ℚ) (x : ℚ) : ℤ :=
  1 + (vals.countP (fun y => decide (x < y)) : ℤ)

/-- Model of `Series.quantile(q)` with the default linear interpolation: sort
ascending, take position `h = q * (n - 1)`, interpolate between the
adjacent order statistics. -/
def quantile (q : ℚ) (xs : List ℚ) : ℚ :=
  let w := List.insertionSort (fun a b : ℚ => a ≤ b) xs
  let h : ℚ := q * ((xs.length : ℚ) - 1)
  let i : ℕ := (⌊h⌋).toNat
  let lo := w.getD i 0
  let hi := w.getD (i + 1) lo
  lo + (h - (i : ℚ)) * (hi - lo)

/-- The normalized rows of `_normalize_and_rank` for the (already sorted)
nonempty, non-uniform DataFrame `S`: per row, min-max normalization
`(s - min) / (max - min) * 100` rounded to 2 decimals, and the
descending min-method rank cast to int. -/
def normRows (S : List (ℚ × ℚ)) : List StrengthRow :=
  let mn := seriesMin (S.map (fun pr => pr.2))
  let mx := seriesMax (S.map (fun pr => pr.2))
  let norm := S.map (fun pr => (pr.1, pr.2, rnd 2 ((pr.2 - mn) / (mx - mn) * 100)))
  norm.map (fun t =>
    StrengthRow.mk t.1 t.2.1 t.2.2 (rankMin (norm.map (fun t2 => t2.2.2)) t.2.2))

/-- The top-30% filter of `_normalize_and_rank`: keep rows whose normalized
score is `≥` the 70th percentile of the normalized column, then re-rank
within the filtered set. -/
def filterRows (rows : List StrengthRow) : List StrengthRow :=
  let thr := quantile (7/10) (rows.map (fun r => r.normalized))
  let keep := rows.filter (fun r => decide (thr ≤ r.normalized))
  keep.map (fun r => StrengthRow.mk r.price r.strength r.normalized
    (rankMin (keep.map (fun q2 => q2.normalized)) r.normalized))

/-- Model of `_normalize_and_rank`: sort by price (stable, like
`sort_values(\x27price\x27)`), then normalize, rank, and filter.  An empty
DataFrame flows through pandas to an all-empty result; a nonempty uniform
strength column makes `max == min`, so every normalized entry is
`0/0 = NaN`, the rank column is NaN, and the `astype(int)` cast raises
(`cannot convert non-finite values to integer`) — modelled as an error
result. -/
def normalizeAndRank (pairs : List (ℚ × ℚ)) : Except String StrengthReport :=
  let sorted := List.insertionSort (fun a b : ℚ × ℚ => a.1 ≤ b.1) pairs
  if sorted = [] then Except.ok emptyReport
  else if seriesMin (sorted.map (fun pr => pr.2)) =
      seriesMax (sorted.map (fun pr => pr.2)) then
    Except.error "cannot convert non-finite values to integer"
  else Except.ok ⟨normRows sorted, filterRows (normRows sorted)⟩

/-- Model of `SupportStrengthAnalyzer.calculate`: the four stages in order (volume
seeding, bounce adjustment, distance decay, normalize-and-rank). -/
def calculateStrength (decay : ℚ → ℚ) (s : List Candle) (p : ℤ → ℚ)
    (pm pM : ℚ) (nBins : ℕ) (current : ℚ) : Except String StrengthReport :=
  normalizeAndRank
    (adjustByDistance decay current (adjustByBounces s (strengthScores p pm pM nBins)))

/-! ## Dict-fold lemmas for stage-1 seeding (claim C4) -/

/-- The midpoint table defaults to 0 outside `1 .. n_bins`. -/
theorem binPricesGet_out (pm pM : ℚ) (n : ℕ) (i : ℤ)
    (h : i < 1 ∨ (n : ℤ) < i) : binPricesGet pm pM n i = 0 := by
  unfold binPricesGet
  rw [if_neg]
  rintro ⟨h1, h2⟩
  rcases h with h | h <;> omega

/-- Assigning `d[k] = v` makes `(k, v)` a member (overwriting in place or
appending). -/
theorem dictSet_self_mem (d : List (ℚ × ℚ)) (k v : ℚ) : (k, v) ∈ dictSet d k v := by
  unfold dictSet
  split_ifs with h
  · rw [List.any_eq_true] at h
    obtain ⟨kv, hkv, hk⟩ := h
    have hk' : kv.1 = k := of_decide_eq_true hk
    refine List.mem_map.mpr ⟨kv, hkv, ?_⟩
    rw [if_pos hk']
  · exact List.mem_append_right _ (List.mem_singleton.mpr rfl)

/-- Assigning a different key preserves membership. -/
theorem dictSet_mem_of_ne (d : List (ℚ × ℚ)) (k v k1 v1 : ℚ)
    (h : (k1, v1) ∈ d) (hne : ¬ (k1 = k)) : (k1, v1) ∈ dictSet d k v := by
  unfold dictSet
  split_ifs with hany
  · refine List.mem_map.mpr ⟨(k1, v1), h, ?_⟩
    rw [if_neg hne]
  · exact List.mem_append_left _ h

/-- Assignment with a positive key preserves key positivity. -/
theorem dictSet_forall_pos (d : List (ℚ × ℚ)) (k v : ℚ)
    (hd : ∀ kv ∈ d, 0 < kv.1) (hk : 0 < k) : ∀ kv ∈ dictSet d k v, 0 < kv.1 := by
  unfold dictSet
  split_ifs with hany
  · intro kv hkv
    obtain ⟨kv0, hkv0, rfl⟩ := List.mem_map.mp hkv
    by_cases h0 : kv0.1 = k
    · rw [if_pos h0]
      exact hk
    · rw [if_neg h0]
      exact hd kv0 hkv0
  · intro kv hkv
    rcases List.mem_append.mp hkv with h | h
    · exact hd kv h
    · rw [List.mem_singleton.mp h]
      exact hk

/-- Folding the seeding step over buckets whose (positive) midpoints all
differ from `k` preserves membership of `(k, v)`. -/
theorem foldl_seed_preserve (p : ℤ → ℚ) (pm pM : ℚ) (n : ℕ) :
    ∀ (L : List ℤ) (d : List (ℚ × ℚ)) (k v : ℚ), (k, v) ∈ d →
      (∀ j ∈ L, 0 < binPricesGet pm pM n j → ¬ (binPricesGet pm pM n j = k)) →
      (k, v) ∈ L.foldl (seedStep p pm pM n) d := by
  intro L
  induction L with
  | nil =>
    intro d k v h _
    exact h
  | cons x L ih =>
    intro d k v h hfresh
    simp only [List.foldl_cons]
    apply ih
    · unfold seedStep
      split_ifs with hx
      · exact dictSet_mem_of_ne _ _ _ _ _ h
          (fun he => hfresh x (List.mem_cons_self x L) hx he.symm)
      · exact h
    · intro j hj hposj
      exact hfresh j (List.mem_cons_of_mem x hj) hposj

/-- If bucket `i` occurs in `L`, has a positive midpoint, and no other
bucket of `L` shares that midpoint, then `(midpoint i, volume i)` is in the
final dict. -/
theorem foldl_seed_mem (p : ℤ → ℚ) (pm pM : ℚ) (n : ℕ) :
    ∀ (L : List ℤ) (d : List (ℚ × ℚ)) (i : ℤ), i ∈ L →
      0 < binPricesGet pm pM n i → L.Nodup →
      (∀ j ∈ L, 0 < binPricesGet pm pM n j →
        binPricesGet pm pM n j = binPricesGet pm pM n i → j = i) →
      (binPricesGet pm pM n i, p i) ∈ L.foldl (seedStep p pm pM n) d := by
  intro L
  induction L with
  | nil =>
    intro d i hi
    exact absurd hi (List.not_mem_nil i)
  | cons x L ih =>
    intro d i hi hpos hnd hfresh
    simp only [List.foldl_cons]
    rcases List.mem_cons.mp hi with rfl | hi'
    · apply foldl_seed_preserve
      · unfold seedStep
        rw [if_pos hpos]
        exact dictSet_self_mem d _ _
      · intro j hj hposj he
        have hji : j = i := hfresh j (List.mem_cons_of_mem _ hj) hposj he
        subst hji
        exact (List.nodup_cons.mp hnd).1 hj
    · apply ih _ i hi' hpos (List.nodup_cons.mp hnd).2
      intro j hj hposj he
      exact hfresh j (List.mem_cons_of_mem _ hj) hposj he

/-- Candles for the C4 counterexample (same data as `seriesSkew`): bucket 2
accumulates ZERO volume yet its midpoint `1.5` is seeded with score 0,
while bucket 3 (volume 10, no midpoint) is excluded. -/
theorem zero_volume_seeded_cx :
    strengthScores (buildProfile seriesSkew 2) (priceMin seriesSkew)
        (priceMax seriesSkew) 2 = [(1/2, 9), (3/2, 0)] ∧
      buildProfile seriesSkew 2 2 = 0 := by
  with_unfolding_all decide

/-- C4 amended: over a non-degenerate range, a bucket `i ∈ 1 .. n_bins` is
seeded into the strength domain if (and, by key positivity, only if) its
midpoint lookup is strictly positive — its accumulated volume plays no
role, so zero-volume buckets with a positive midpoint are seeded with
score 0.  All seeded keys are positive prices. -/
theorem seeding_rule (p : ℤ → ℚ) (pm pM : ℚ) (n : ℕ) (i : ℤ)
    (hpm : pm < pM) (h1 : 1 ≤ i) (h2 : i ≤ (n : ℤ))
    (hpos : 0 < binPricesGet pm pM n i) :
    (binPricesGet pm pM n i, p i) ∈ strengthScores p pm pM n ∧
      ∀ kv ∈ strengthScores p pm pM n, 0 < kv.1 := by
  constructor
  · unfold strengthScores
    apply foldl_seed_mem
    · exact List.mem_map.mpr ⟨(i - 1).toNat, List.mem_range.mpr (by omega), by omega⟩
    · exact hpos
    · exact List.Nodup.map (fun a b hab => by omega) (List.nodup_range _)
    · intro j hj hposj he
      obtain ⟨kj, hkj, rfl⟩ := List.mem_map.mp hj
      rw [List.mem_range] at hkj
      by_cases hjn : ((kj : ℤ) + 1) ≤ (n : ℤ)
      · rcases lt_trichotomy ((kj : ℤ) + 1) i with hlt | heq | hgt
        · exact absurd he (ne_of_lt (binPricesGet_strictMono pm pM n hpm _ i (by omega) hlt h2))
        · exact heq
        · exact absurd he (ne_of_gt (binPricesGet_strictMono pm pM n hpm i _ h1 hgt hjn))
      · rw [binPricesGet_out pm pM n _ (Or.inr (by omega))] at hposj
        exact absurd hposj (lt_irrefl 0)
  · unfold strengthScores
    have hinv : ∀ (L : List ℤ) (d : List (ℚ × ℚ)), (∀ kv ∈ d, 0 < kv.1) →
        ∀ kv ∈ L.foldl (seedStep p pm pM n) d, 0 < kv.1 := by
      intro L
      induction L with
      | nil =>
        intro d hd
        exact hd
      | cons x L ih =>
        intro d hd
        simp only [List.foldl_cons]
        apply ih
        unfold seedStep
        split_ifs with hx
        · exact dictSet_forall_pos d _ _ hd hx
        · exact hd
    exact hinv _ [] (fun kv h => absurd h (List.not_mem_nil kv))

theorem seeding_rule_witness :
    (binPricesGet 0 2 2 2, buildProfile seriesSkew 2 2) ∈
        strengthScores (buildProfile seriesSkew 2) 0 2 2 ∧
      ∀ kv ∈ strengthScores (buildProfile seriesSkew 2) 0 2 2, 0 < kv.1 :=
  seeding_rule (buildProfile seriesSkew 2) 0 2 2 2 (by norm_num) (by norm_num)
    (by norm_num) (by with_unfolding_all decide)

/-! ## Empty strength domain (claim C5) -/

/-- Single candle entirely at negative prices: every bucket midpoint is
negative, so stage 1 seeds nothing even though the profile has positive
volume. -/
def seriesNeg : List Candle := [⟨-2, 0, -1, 5⟩]

/-- C5 counterexample: with an empty seeded domain,
`SupportStrengthAnalyzer.calculate` SUCCEEDS and returns the all-empty
report — no `EmptyProfileError` is raised (no such error exists anywhere
in the code). -/
theorem empty_domain_cx :
    strengthScores (buildProfile seriesNeg 2) (priceMin seriesNeg)
        (priceMax seriesNeg) 2 = [] ∧
      calculateStrength (fun _ => 1) seriesNeg (buildProfile seriesNeg 2)
        (priceMin seriesNeg) (priceMax seriesNeg) 2 (-1) = Except.ok emptyReport := by
  constructor
  · with_unfolding_all rfl
  · with_unfolding_all rfl

/-- C5 amended: whenever stage 1 seeds an empty domain, the whole
`calculate` pipeline runs to completion and returns the empty report —
the empty DataFrame flows through normalization, ranking, and filtering
without error. -/
theorem empty_domain_ok (decay : ℚ → ℚ) (s : List Candle) (p : ℤ → ℚ)
    (pm pM current : ℚ) (n : ℕ)
    (h : strengthScores p pm pM n = []) :
    calculateStrength decay s p pm pM n current = Except.ok emptyReport := by
  unfold calculateStrength adjustByDistance adjustByBounces
  rw [h]
  rfl

theorem empty_domain_ok_witness :
    calculateStrength (fun _ => 1) [] (fun _ => 3) (-4) (-2) 2 5 = Except.ok emptyReport :=
  empty_domain_ok (fun _ => 1) [] (fun _ => 3) (-4) (-2) 5 2 (by with_unfolding_all rfl)

/-! ## Min-max normalization (claim C8) -/

theorem foldl_min_le_init : ∀ (xs : List ℚ) (a : ℚ), xs.foldl min a ≤ a := by
  intro xs
  induction xs with
  | nil => intro a; exact le_refl a
  | cons x xs ih => intro a; exact le_trans (ih (min a x)) (min_le_left a x)

theorem foldl_min_le_mem : ∀ (xs : List ℚ) (a y : ℚ), y ∈ xs → xs.foldl min a ≤ y := by
  intro xs
  induction xs with
  | nil => intro a y hy; exact absurd hy (List.not_mem_nil y)
  | cons x xs ih =>
    intro a y hy
    rcases List.mem_cons.mp hy with rfl | hy'
    · exact le_trans (foldl_min_le_init xs (min a y)) (min_le_right a y)
    · exact ih (min a x) y hy'

theorem foldl_min_mem : ∀ (xs : List ℚ) (a : ℚ),
    xs.foldl min a = a ∨ xs.foldl min a ∈ xs := by
  intro xs
  induction xs with
  | nil => intro a; exact Or.inl rfl
  | cons x xs ih =>
    intro a
    simp only [List.foldl_cons]
    rcases ih (min a x) with h | h
    · rcases min_choice a x with hm | hm
      · exact Or.inl (h.trans hm)
      · refine Or.inr ?_
        rw [h, hm]
        exact List.mem_cons_self x xs
    · exact Or.inr (List.mem_cons_of_mem x h)

theorem foldl_max_init_le : ∀ (xs : List ℚ) (a : ℚ), a ≤ xs.foldl max a := by
  intro xs
  induction xs with
  | nil => intro a; exact le_refl a
  | cons x xs ih => intro a; exact le_trans (le_max_left a x) (ih (max a x))

theorem foldl_max_mem_le : ∀ (xs : List ℚ) (a y : ℚ), y ∈ xs → y ≤ xs.foldl max a := by
  intro xs
  induction xs with
  | nil => intro a y hy; exact absurd hy (List.not_mem_nil y)
  | cons x xs ih =>
    intro a y hy
    rcases List.mem_cons.mp hy with rfl | hy'
    · exact le_trans (le_max_right a y) (foldl_max_init_le xs (max a y))
    · exact ih (max a x) y hy'

theorem foldl_max_mem : ∀ (xs : List ℚ) (a : ℚ),
    xs.foldl max a = a ∨ xs.foldl max a ∈ xs := by
  intro xs
  induction xs with
  | nil => intro a; exact Or.inl rfl
  | cons x xs ih =>
    intro a
    simp only [List.foldl_cons]
    rcases ih (max a x) with h | h
    · rcases max_choice a x with hm | hm
      · exact Or.inl (h.trans hm)
      · refine Or.inr ?_
        rw [h, hm]
        exact List.mem_cons_self x xs
    · exact Or.inr (List.mem_cons_of_mem x h)

theorem seriesMin_le (x : ℚ) (xs : List ℚ) (y : ℚ) (hy : y ∈ x :: xs) :
    seriesMin (x :: xs) ≤ y := by
  rcases List.mem_cons.mp hy with rfl | hy'
  · exact foldl_min_le_init xs y
  · exact foldl_min_le_mem xs x y hy'

theorem seriesMin_mem (x : ℚ) (xs : List ℚ) : seriesMin (x :: xs) ∈ x :: xs := by
  show xs.foldl min x ∈ x :: xs
  rcases foldl_min_mem xs x with h | h
  · rw [h]
    exact List.mem_cons_self x xs
  · exact List.mem_cons_of_mem x h

theorem seriesMax_ge (x : ℚ) (xs : List ℚ) (y : ℚ) (hy : y ∈ x :: xs) :
    y ≤ seriesMax (x :: xs) := by
  rcases List.mem_cons.mp hy with rfl | hy'
  · exact foldl_max_init_le xs y
  · exact foldl_max_mem_le xs x y hy'

theorem seriesMax_mem (x : ℚ) (xs : List ℚ) : seriesMax (x :: xs) ∈ x :: xs := by
  show xs.foldl max x ∈ x :: xs
  rcases foldl_max_mem xs x with h | h
  · rw [h]
    exact List.mem_cons_self x xs
  · exact List.mem_cons_of_mem x h

/-- Rounding to `k` decimals is monotone. -/
theorem rnd_mono (k : ℕ) {x y : ℚ} (h : x ≤ y) : rnd k x ≤ rnd k y := by
  unfold rnd
  have hr : round (x * 10 ^ k) ≤ round (y * 10 ^ k) := by
    rw [round_eq, round_eq]
    exact Int.floor_mono (by
      have : x * 10 ^ k ≤ y * 10 ^ k :=
        mul_le_mul_of_nonneg_right h (by positivity)
      linarith)
  have hrq : ((round (x * 10 ^ k) : ℤ) : ℚ) ≤ ((round (y * 10 ^ k) : ℤ) : ℚ) := by
    exact_mod_cast hr
  gcongr

/-- C8 counterexample: a nonempty UNIFORM strength input makes
`max == min`, every normalized entry is `0/0` (NaN), and the integer cast
of the NaN rank column raises — the pipeline errors instead of mapping
every price to 0. -/
theorem uniform_strength_cx :
    normalizeAndRank [(1, 5), (2, 5)] =
      Except.error "cannot convert non-finite values to integer" := by
  with_unfolding_all rfl

/-- Min-max normalization of `s ∈ [mn, mx]` scaled to 100 stays in
`[0, 100]`. -/
theorem normval_bounds {s mn mx : ℚ} (hmn : mn ≤ s) (hmx : s ≤ mx) (hlt : mn < mx) :
    0 ≤ (s - mn) / (mx - mn) * 100 ∧ (s - mn) / (mx - mn) * 100 ≤ 100 := by
  have hd : 0 < mx - mn := sub_pos.mpr hlt
  constructor
  · exact mul_nonneg (div_nonneg (by linarith) (le_of_lt hd)) (by norm_num)
  · have h1 : (s - mn) / (mx - mn) ≤ 1 := (div_le_one hd).mpr (by linarith)
    calc (s - mn) / (mx - mn) * 100 ≤ 1 * 100 :=
        mul_le_mul_of_nonneg_right h1 (by norm_num)
      _ = 100 := one_mul 100

/-- Rounding to two decimals preserves the `[0, 100]` window. -/
theorem rnd_bounds {t : ℚ} (h0t : 0 ≤ t) (ht1 : t ≤ 100) :
    0 ≤ rnd 2 t ∧ rnd 2 t ≤ 100 := by
  constructor
  · have h := rnd_mono 2 h0t
    rwa [show rnd 2 0 = 0 from by with_unfolding_all decide] at h
  · have h := rnd_mono 2 ht1
    rwa [show rnd 2 (100 : ℚ) = 100 from by with_unfolding_all decide] at h

/-- Every input row of the sorted DataFrame yields a normalized row whose
strength and normalized fields are the min-max formula. -/
theorem normRows_mem_of_mem (S : List (ℚ × ℚ)) (pr : ℚ × ℚ) (h : pr ∈ S) :
    ∃ r ∈ normRows S, r.strength = pr.2 ∧
      r.normalized = rnd 2 ((pr.2 - seriesMin (S.map (fun pr2 : ℚ × ℚ => pr2.2))) /
        (seriesMax (S.map (fun pr2 : ℚ × ℚ => pr2.2)) -
          seriesMin (S.map (fun pr2 : ℚ × ℚ => pr2.2))) * 100) := by
  unfold normRows
  simp only [List.map_map, List.mem_map, Function.comp]
  exact ⟨_, ⟨pr, h, rfl⟩, rfl, rfl⟩

/-- Conversely, every normalized row comes from an input row this way. -/
theorem normRows_strength_normalized (S : List (ℚ × ℚ)) (r : StrengthRow)
    (h : r ∈ normRows S) :
    ∃ pr ∈ S, r.strength = pr.2 ∧
      r.normalized = rnd 2 ((pr.2 - seriesMin (S.map (fun pr2 : ℚ × ℚ => pr2.2))) /
        (seriesMax (S.map (fun pr2 : ℚ × ℚ => pr2.2)) -
          seriesMin (S.map (fun pr2 : ℚ × ℚ => pr2.2))) * 100) := by
  unfold normRows at h
  simp only [List.map_map, List.mem_map, Function.comp] at h
  obtain ⟨pr, hpr, rfl⟩ := h
  exact ⟨pr, hpr, rfl, rfl⟩

/-- C8 amended: for every input with at least two distinct strength values,
normalization succeeds; every normalized score lies in `[0, 100]`, a
maximum-strength row normalizes to exactly 100 and a minimum-strength row
to exactly 0.  (The uniform case errors instead of mapping to 0 — see the
counterexample.) -/
theorem normalize_bounds (pairs : List (ℚ × ℚ)) (a b : ℚ × ℚ)
    (ha : a ∈ pairs) (hb : b ∈ pairs) (hab : ¬ (a.2 = b.2)) :
    ∃ rep : StrengthReport, normalizeAndRank pairs = Except.ok rep ∧
      (∀ r ∈ rep.rows, 0 ≤ r.normalized ∧ r.normalized ≤ 100) ∧
      (∃ r ∈ rep.rows, (∀ q ∈ rep.rows, q.strength ≤ r.strength) ∧ r.normalized = 100) ∧
      (∃ r ∈ rep.rows, (∀ q ∈ rep.rows, r.strength ≤ q.strength) ∧ r.normalized = 0) := by
  set S : List (ℚ × ℚ) := List.insertionSort (fun a b : ℚ × ℚ => a.1 ≤ b.1) pairs with hS
  have hperm : S.Perm pairs := by
    rw [hS]
    exact List.perm_insertionSort _ pairs
  have haS : a ∈ S := hperm.mem_iff.mpr ha
  have hbS : b ∈ S := hperm.mem_iff.mpr hb
  have hSne : ¬ (S = []) := by
    intro h
    rw [h] at haS
    exact List.not_mem_nil a haS
  obtain ⟨hd1, tl1, hcons⟩ := List.exists_cons_of_ne_nil hSne
  have hminle : ∀ y ∈ S.map (fun pr2 : ℚ × ℚ => pr2.2),
      seriesMin (S.map (fun pr2 : ℚ × ℚ => pr2.2)) ≤ y := by
    rw [hcons]
    simp only [List.map_cons]
    exact fun y hy => seriesMin_le _ _ y hy
  have hmaxge : ∀ y ∈ S.map (fun pr2 : ℚ × ℚ => pr2.2),
      y ≤ seriesMax (S.map (fun pr2 : ℚ × ℚ => pr2.2)) := by
    rw [hcons]
    simp only [List.map_cons]
    exact fun y hy => seriesMax_ge _ _ y hy
  have hminmem : seriesMin (S.map (fun pr2 : ℚ × ℚ => pr2.2)) ∈
      S.map (fun pr2 : ℚ × ℚ => pr2.2) := by
    rw [hcons]
    simp only [List.map_cons]
    exact seriesMin_mem _ _
  have hmaxmem : seriesMax (S.map (fun pr2 : ℚ × ℚ => pr2.2)) ∈
      S.map (fun pr2 : ℚ × ℚ => pr2.2) := by
    rw [hcons]
    simp only [List.map_cons]
    exact seriesMax_mem _ _
  have hlt : seriesMin (S.map (fun pr2 : ℚ × ℚ => pr2.2)) <
      seriesMax (S.map (fun pr2 : ℚ × ℚ => pr2.2)) := by
    rcases lt_or_eq_of_le (hminle _ hmaxmem) with h | h
    · exact h
    · exfalso
      apply hab
      have h1 := hminle a.2 (List.mem_map_of_mem _ haS)
      have h2 := hmaxge a.2 (List.mem_map_of_mem _ haS)
      have h3 := hminle b.2 (List.mem_map_of_mem _ hbS)
      have h4 := hmaxge b.2 (List.mem_map_of_mem _ hbS)
      linarith
  have hd0 : (0 : ℚ) < seriesMax (S.map (fun pr2 : ℚ × ℚ => pr2.2)) -
      seriesMin (S.map (fun pr2 : ℚ × ℚ => pr2.2)) := sub_pos.mpr hlt
  have hne : ¬ (seriesMin (S.map (fun pr2 : ℚ × ℚ => pr2.2)) =
      seriesMax (S.map (fun pr2 : ℚ × ℚ => pr2.2))) := ne_of_lt hlt
  have hres : normalizeAndRank pairs =
      Except.ok ⟨normRows S, filterRows (normRows S)⟩ := by
    unfold normalizeAndRank
    rw [← hS]
    rw [if_neg hSne, if_neg hne]
  have hbound : ∀ r ∈ normRows S, 0 ≤ r.normalized ∧ r.normalized ≤ 100 := by
    intro r hr
    obtain ⟨pr, hpr, hs, hn⟩ := normRows_strength_normalized S r hr
    rw [hn]
    obtain ⟨t0, t1⟩ := normval_bounds (hminle pr.2 (List.mem_map_of_mem _ hpr))
      (hmaxge pr.2 (List.mem_map_of_mem _ hpr)) hlt
    exact rnd_bounds t0 t1
  have hmaxrow : ∃ r ∈ normRows S,
      (∀ q ∈ normRows S, q.strength ≤ r.strength) ∧ r.normalized = 100 := by
    obtain ⟨prM, hprM, hprM2⟩ := List.mem_map.mp hmaxmem
    have hprM2x : prM.2 = seriesMax (S.map (fun pr2 : ℚ × ℚ => pr2.2)) := hprM2
    obtain ⟨r, hrmem, hrs, hrn⟩ := normRows_mem_of_mem S prM hprM
    refine ⟨r, hrmem, ?_, ?_⟩
    · intro q hq
      obtain ⟨pq, hpq, hqs, -⟩ := normRows_strength_normalized S q hq
      rw [hqs, hrs, hprM2x]
      exact hmaxge pq.2 (List.mem_map_of_mem _ hpq)
    · rw [hrn, hprM2x, div_self (ne_of_gt hd0), one_mul]
      with_unfolding_all decide
  have hminrow : ∃ r ∈ normRows S,
      (∀ q ∈ normRows S, r.strength ≤ q.strength) ∧ r.normalized = 0 := by
    obtain ⟨prm, hprm, hprm2⟩ := List.mem_map.mp hminmem
    have hprm2x : prm.2 = seriesMin (S.map (fun pr2 : ℚ × ℚ => pr2.2)) := hprm2
    obtain ⟨r, hrmem, hrs, hrn⟩ := normRows_mem_of_mem S prm hprm
    refine ⟨r, hrmem, ?_, ?_⟩
    · intro q hq
      obtain ⟨pq, hpq, hqs, -⟩ := normRows_strength_normalized S q hq
      rw [hqs, hrs, hprm2x]
      exact hminle pq.2 (List.mem_map_of_mem _ hpq)
    · rw [hrn, hprm2x, sub_self, zero_div, zero_mul]
      with_unfolding_all decide
  exact ⟨⟨normRows S, filterRows (normRows S)⟩, hres, hbound, hmaxrow, hminrow⟩

theorem normalize_bounds_witness :
    ∃ rep : StrengthReport, normalizeAndRank [((1 : ℚ), (0 : ℚ)), (2, 10)] = Except.ok rep ∧
      (∀ r ∈ rep.rows, 0 ≤ r.normalized ∧ r.normalized ≤ 100) ∧
      (∃ r ∈ rep.rows, (∀ q ∈ rep.rows, q.strength ≤ r.strength) ∧ r.normalized = 100) ∧
      (∃ r ∈ rep.rows, (∀ q ∈ rep.rows, r.strength ≤ q.strength) ∧ r.normalized = 0) :=
  normalize_bounds [((1 : ℚ), (0 : ℚ)), (2, 10)] (1, 0) (2, 10)
    (List.mem_cons_self _ _) (by simp) (by norm_num)
